import Mathlib

/-!
Shallow embedding of the growable-array container in `src/vec.rs`
(a minimal `Vec<T>` built on the raw allocator).

Modelling conventions:
* Machine integers (`usize`) are `Nat`; `isize::MAX` on the modelled 64-bit
  platform is `isizeMax`.
* The backing allocation reached through `ptr` is modelled as a
  `List (Option T)` with one entry per allocated slot; `none` models
  uninitialized slot contents.  In every state the code can actually build,
  the allocation holds exactly `cap` slots.
* `T` is represented by a Lean type together with `sizeT : Nat`, the value
  of `mem::size_of::<T>()`.
* Process termination (a failed `assert!`, a failed `Layout` `unwrap`, or
  `handle_alloc_error`) is modelled as `Option.none`: an aborting run
  produces no state.  The allocator itself is modelled as always
  succeeding, since its failure is also an abort.
-/

/-- Model of `isize::MAX as usize` on a 64-bit platform. -/
def isizeMax : Nat := 2 ^ 63 - 1

/-- The state of `Vec<T>` from `src/vec.rs`: the allocation behind `ptr`
(`mem`), the field `cap`, and the field `len`.  (`_marker` carries no
data and is omitted.) -/
structure Vec (T : Type) where
  mem : List (Option T)
  cap : Nat
  len : Nat
deriving Repr, DecidableEq

/-- `Vec::new`: asserts `size_of::<T>() != 0` (a zero-size type aborts,
modelled as `none`), then returns the empty container: dangling pointer
(no allocated slots), `cap = 0`, `len = 0`. -/
def Vec.new (T : Type) (sizeT : Nat) : Option (Vec T) :=
  if sizeT = 0 then none
  else some { mem := [], cap := 0, len := 0 }

/-- Model of `alloc::realloc` at the slot level: the new block keeps the
first `min(old, new)` slots of the old block and leaves any further slots
uninitialized.  The result always has exactly `newCap` slots. -/
def reallocMem {T : Type} (mem : List (Option T)) (newCap : Nat) : List (Option T) :=
  mem.take newCap ++ List.replicate (newCap - mem.length) none

/-- `Vec::grow`: computes `new_cap` (`1` from an empty container, else
`2 * cap`); `Layout::array::<T>(new_cap).unwrap()` aborts unless the byte
size `new_cap * sizeT` fits in `isize`; the manual `assert!` aborts unless
`new_cap <= isize::MAX`; then the block is freshly allocated
(uninitialized) when `cap == 0` and reallocated (contents preserved)
otherwise.  `len` is not touched. -/
def Vec.grow {T : Type} (sizeT : Nat) (v : Vec T) : Option (Vec T) :=
  let newCap := if v.cap = 0 then 1 else 2 * v.cap
  if newCap * sizeT ≤ isizeMax then
    if newCap ≤ isizeMax then
      if v.cap = 0 then
        some { mem := List.replicate newCap none, cap := newCap, len := v.len }
      else
        some { mem := reallocMem v.mem newCap, cap := newCap, len := v.len }
    else none
  else none

/-- `Vec::push`: grows first when `len == cap`, then `ptr::write`s the
element into slot `len` and increments `len`. -/
def Vec.push {T : Type} (sizeT : Nat) (v : Vec T) (elem : T) : Option (Vec T) :=
  match (if v.len = v.cap then v.grow sizeT else some v) with
  | none => none
  | some w => some { w with mem := w.mem.set w.len (some elem), len := w.len + 1 }

/-- `Vec::pop`: returns `None` when `len == 0`; otherwise decrements `len`
and `ptr::read`s slot `len` (the memory itself is not modified). -/
def Vec.pop {T : Type} (v : Vec T) : Option T × Vec T :=
  if v.len = 0 then (none, v)
  else (v.mem.getD (v.len - 1) none, { v with len := v.len - 1 })

/-- `Deref::deref`: `slice::from_raw_parts(ptr, len)`, the window over
slots `0, …, len - 1`.  (`DerefMut` exposes the same window mutably.) -/
def Vec.view {T : Type} (v : Vec T) : List (Option T) :=
  (List.range v.len).map fun i => v.mem.getD i none

/-- A client-visible operation on the container. -/
inductive Op (T : Type) where
  | push (x : T)
  | pop
deriving Repr, DecidableEq

/-- One operation applied to a state (`pop` discards the returned value). -/
def Vec.step {T : Type} (sizeT : Nat) (v : Vec T) : Op T → Option (Vec T)
  | .push x => v.push sizeT x
  | .pop => some v.pop.2

/-- A sequence of operations applied to a state; `none` once any step aborts. -/
def Vec.run {T : Type} (sizeT : Nat) (v : Vec T) : List (Op T) → Option (Vec T)
  | [] => some v
  | op :: ops =>
    match v.step sizeT op with
    | none => none
    | some w => w.run sizeT ops

/-- The state invariant of the container: the allocation holds exactly
`cap` slots, at most `cap` of them are live, and every live slot
(index below `len`) holds a constructed element. -/
def Vec.Inv {T : Type} (v : Vec T) : Prop :=
  v.mem.length = v.cap ∧ v.len ≤ v.cap ∧ ∀ i < v.len, (v.mem.getD i none).isSome

instance {T : Type} (v : Vec T) : Decidable v.Inv := by
  unfold Vec.Inv; infer_instance

/-! ### Basic lemmas about `grow` -/

theorem Vec.grow_eq_some {T : Type} {sizeT : Nat} {v w : Vec T}
    (h : v.grow sizeT = some w) :
    w.len = v.len ∧
    w.cap = (if v.cap = 0 then 1 else 2 * v.cap) ∧
    w.mem.length = w.cap ∧
    w.cap * sizeT ≤ isizeMax := by
  unfold Vec.grow at h
  by_cases h0 : v.cap = 0 <;>
    simp only [h0, if_true, if_false, ite_true, ite_false] at h <;>
    split_ifs at h with h1 h2 <;>
    cases h <;>
    simp_all [reallocMem, Nat.sub_add_cancel, List.length_take, List.length_append,
      List.length_replicate]
  omega

theorem Vec.grow_cap_lt {T : Type} {sizeT : Nat} {v w : Vec T}
    (h : v.grow sizeT = some w) : v.cap < w.cap := by
  obtain ⟨-, hcap, -, -⟩ := Vec.grow_eq_some h
  by_cases h0 : v.cap = 0 <;> simp [h0] at hcap <;> omega

theorem Vec.grow_preserves_slots {T : Type} {sizeT : Nat} {v w : Vec T}
    (hlen : v.mem.length = v.cap)
    (h : v.grow sizeT = some w) :
    ∀ i < v.cap, w.mem.getD i none = v.mem.getD i none := by
  intro i hi
  unfold Vec.grow at h
  by_cases h0 : v.cap = 0
  · omega
  · simp only [h0, if_false, ite_false] at h
    split_ifs at h with h1 h2
    cases h
    simp only [reallocMem]
    have hi' : i < v.mem.length := by omega
    have htk : v.mem.take (2 * v.cap) = v.mem :=
      List.take_of_length_le (by omega)
    rw [htk, List.getD_eq_getElem?_getD, List.getD_eq_getElem?_getD,
      List.getElem?_append, if_pos hi']

/-! ### Lemmas about the view and the write step of `push` -/

theorem Vec.view_eq_of_slots {T : Type} {v w : Vec T} (hlen : w.len = v.len)
    (hs : ∀ i < v.len, w.mem.getD i none = v.mem.getD i none) :
    w.view = v.view := by
  unfold Vec.view
  rw [hlen]
  exact List.map_congr_left fun i hi => hs i (List.mem_range.mp hi)

theorem Vec.view_write {T : Type} (g : Vec T) (x : T) (h : g.len < g.mem.length) :
    Vec.view { g with mem := g.mem.set g.len (some x), len := g.len + 1 }
      = g.view ++ [some x] := by
  unfold Vec.view
  simp only [List.range_succ, List.map_append, List.map_cons, List.map_nil]
  congr 1
  · refine List.map_congr_left fun i hi => ?_
    have hi' := List.mem_range.mp hi
    rw [List.getD_eq_getElem?_getD, List.getD_eq_getElem?_getD,
      List.getElem?_set_ne (by omega)]
  · rw [List.getD_eq_getElem?_getD, List.getElem?_set_eq_of_lt _ h]
    rfl

theorem Vec.grow_inv {T : Type} {sizeT : Nat} {v w : Vec T} (hinv : v.Inv)
    (h : v.grow sizeT = some w) : w.Inv ∧ w.view = v.view := by
  obtain ⟨hmlen, hcap, hslots⟩ := hinv
  obtain ⟨hwlen, -, hwm, -⟩ := Vec.grow_eq_some h
  have hlt := Vec.grow_cap_lt h
  have hpres := Vec.grow_preserves_slots hmlen h
  refine ⟨⟨hwm, by omega, fun i hi => ?_⟩, ?_⟩
  · rw [hwlen] at hi
    rw [hpres i (by omega)]
    exact hslots i hi
  · exact Vec.view_eq_of_slots hwlen fun i hi => hpres i (by omega)

theorem Vec.push_eq_some {T : Type} {sizeT : Nat} {v w : Vec T} {x : T}
    (hinv : v.Inv) (h : Vec.push sizeT v x = some w) :
    w.Inv ∧ w.len = v.len + 1 ∧ v.cap ≤ w.cap ∧ w.view = v.view ++ [some x] := by
  unfold Vec.push at h
  by_cases hc : v.len = v.cap
  · rw [if_pos hc] at h
    cases hg : v.grow sizeT with
    | none => rw [hg] at h; cases h
    | some g =>
      rw [hg] at h
      cases h
      obtain ⟨hginv, hgview⟩ := Vec.grow_inv hinv hg
      obtain ⟨hglen, -, hgm, -⟩ := Vec.grow_eq_some hg
      have hcaplt : v.cap < g.cap := Vec.grow_cap_lt hg
      obtain ⟨hgmlen, hgcap, hgslots⟩ := hginv
      have hlt : g.len < g.mem.length := by omega
      refine ⟨⟨?_, ?_, ?_⟩, ?_, ?_, ?_⟩
      · simpa using hgmlen
      · simp only [List.length_set] at *; omega
      · intro i hi
        simp only at hi ⊢
        rcases Nat.lt_succ_iff_lt_or_eq.mp hi with hi' | hi'
        · rw [List.getD_eq_getElem?_getD, List.getElem?_set_ne (by omega),
            ← List.getD_eq_getElem?_getD]
          exact hgslots i hi'
        · subst hi'
          rw [List.getD_eq_getElem?_getD, List.getElem?_set_eq_of_lt _ hlt]
          rfl
      · simp [hglen]
      · simp only; omega
      · rw [Vec.view_write g x hlt, hgview]
  · rw [if_neg hc] at h
    cases h
    obtain ⟨hmlen, hcap, hslots⟩ := hinv
    have hlt : v.len < v.mem.length := by omega
    refine ⟨⟨?_, ?_, ?_⟩, ?_, ?_, ?_⟩
    · simpa using hmlen
    · simp only [List.length_set] at *; omega
    · intro i hi
      simp only at hi ⊢
      rcases Nat.lt_succ_iff_lt_or_eq.mp hi with hi' | hi'
      · rw [List.getD_eq_getElem?_getD, List.getElem?_set_ne (by omega),
          ← List.getD_eq_getElem?_getD]
        exact hslots i hi'
      · subst hi'
        rw [List.getD_eq_getElem?_getD, List.getElem?_set_eq_of_lt _ hlt]
        rfl
    · rfl
    · simp only; omega
    · exact Vec.view_write v x hlt

theorem Vec.pop_inv {T : Type} {v : Vec T} (hinv : v.Inv) : v.pop.2.Inv := by
  obtain ⟨hmlen, hcap, hslots⟩ := hinv
  unfold Vec.pop
  by_cases h0 : v.len = 0
  · rw [if_pos h0]
    exact ⟨hmlen, hcap, hslots⟩
  · rw [if_neg h0]
    exact ⟨hmlen, by simp only; omega, fun i hi => hslots i (by simp only at hi; omega)⟩

theorem Vec.pop_snd_mem {T : Type} (v : Vec T) : v.pop.2.mem = v.mem := by
  unfold Vec.pop
  split <;> rfl

theorem Vec.pop_snd_cap {T : Type} (v : Vec T) : v.pop.2.cap = v.cap := by
  unfold Vec.pop
  split <;> rfl

theorem Vec.step_inv {T : Type} {sizeT : Nat} {v w : Vec T} {op : Op T}
    (hinv : v.Inv) (h : v.step sizeT op = some w) : w.Inv ∧ v.cap ≤ w.cap := by
  cases op with
  | push x =>
    obtain ⟨h1, -, h3, -⟩ := Vec.push_eq_some hinv h
    exact ⟨h1, h3⟩
  | pop =>
    cases h
    exact ⟨Vec.pop_inv hinv, le_of_eq (Vec.pop_snd_cap v).symm⟩

theorem Vec.run_inv {T : Type} {sizeT : Nat} {ops : List (Op T)} {v w : Vec T}
    (hinv : v.Inv) (h : v.run sizeT ops = some w) : w.Inv ∧ v.cap ≤ w.cap := by
  induction ops generalizing v with
  | nil => cases h; exact ⟨hinv, Nat.le_refl _⟩
  | cons op ops ih =>
    unfold Vec.run at h
    cases hs : v.step sizeT op with
    | none => rw [hs] at h; cases h
    | some u =>
      rw [hs] at h
      obtain ⟨hu, hcap⟩ := Vec.step_inv hinv hs
      obtain ⟨hw, hcap'⟩ := ih hu h
      exact ⟨hw, Nat.le_trans hcap hcap'⟩

theorem Vec.new_eq_some {T : Type} {sizeT : Nat} {v : Vec T}
    (h : Vec.new T sizeT = some v) :
    v = { mem := [], cap := 0, len := 0 } ∧ sizeT ≠ 0 := by
  unfold Vec.new at h
  split at h
  · cases h
  · cases h; exact ⟨rfl, by assumption⟩

theorem Vec.new_inv {T : Type} {sizeT : Nat} {v : Vec T}
    (h : Vec.new T sizeT = some v) : v.Inv := by
  obtain ⟨rfl, -⟩ := Vec.new_eq_some h
  exact ⟨rfl, Nat.le_refl _, fun i hi => by cases hi⟩

/-- Running a list of pushes from any state satisfying the invariant:
the invariant is kept, `len` goes up by the number of pushes, `cap` never
goes down, and the view is extended by the pushed elements in order. -/
theorem Vec.run_pushes {T : Type} {sizeT : Nat} (es : List T) {v0 v : Vec T}
    (hinv : v0.Inv) (h : v0.run sizeT (es.map Op.push) = some v) :
    v.Inv ∧ v.len = v0.len + es.length ∧ v0.cap ≤ v.cap ∧
      v.view = v0.view ++ es.map some := by
  induction es generalizing v0 with
  | nil =>
    cases h
    exact ⟨hinv, rfl, Nat.le_refl _, by simp⟩
  | cons e es ih =>
    simp only [List.map_cons] at h
    unfold Vec.run at h
    cases hs : v0.step sizeT (Op.push e) with
    | none => rw [hs] at h; cases h
    | some u =>
      rw [hs] at h
      obtain ⟨hu, hulen, hucap, huview⟩ := Vec.push_eq_some hinv hs
      obtain ⟨hv, hvlen, hvcap, hvview⟩ := ih hu h
      refine ⟨hv, by simp only [List.length_cons]; omega,
        Nat.le_trans hucap hvcap, ?_⟩
      rw [hvview, huview]
      simp

/-! ### The view as a prefix of memory -/

theorem Vec.view_length {T : Type} (v : Vec T) : v.view.length = v.len := by
  simp [Vec.view]

theorem Vec.view_eq_take {T : Type} {v : Vec T} (h : v.len ≤ v.mem.length) :
    v.view = v.mem.take v.len := by
  apply List.ext_getElem?
  intro i
  by_cases hi : i < v.len
  · rw [List.getElem?_take, if_pos hi]
    have him : i < v.mem.length := by omega
    simp [Vec.view, List.getElem?_map, List.getElem?_range, hi,
      List.getElem?_eq_getElem him, List.getD_eq_getElem _ _ him]
  · have h1 : v.view.length ≤ i := by rw [Vec.view_length]; omega
    have h2 : (v.mem.take v.len).length ≤ i := by
      rw [List.length_take]; omega
    rw [List.getElem?_eq_none h1, List.getElem?_eq_none h2]

/-! ### The destructor -/

/-- An observable event during `Drop::drop`: the destruction of one
element (the popped value going out of scope in the loop), or one call of
`alloc::dealloc`. -/
inductive DropEvent (T : Type) where
  | destruct (x : T)
  | dealloc
deriving Repr, DecidableEq

/-- The pop-until-`None` loop of `Drop::drop`, with an explicit iteration
bound: since each successful `pop` lowers `len` by one and `pop` returns
`None` exactly when `len == 0`, the loop performs exactly the initial
`len` successful pops, so running it with that bound reproduces the whole
loop. -/
def Vec.drainLoop {T : Type} : Nat → Vec T → List (DropEvent T)
  | 0, _ => []
  | fuel + 1, v =>
    match v.pop with
    | (none, _) => []
    | (some x, w) => DropEvent.destruct x :: Vec.drainLoop fuel w

/-- `Drop::drop`: returns at once when `cap == 0` (the dangling pointer is
never handed to the deallocator); otherwise pops (and thereby destructs)
every element, then calls `alloc::dealloc` exactly once. -/
def Vec.dropEvents {T : Type} (v : Vec T) : List (DropEvent T) :=
  if v.cap = 0 then []
  else Vec.drainLoop v.len v ++ [DropEvent.dealloc]

theorem Vec.drainLoop_spec {T : Type} :
    ∀ (n : Nat) (v : Vec T) (es : List T), v.len = n → v.view = es.map some →
      Vec.drainLoop n v = es.reverse.map DropEvent.destruct := by
  intro n
  induction n with
  | zero =>
    intro v es hn hview
    have hl := congrArg List.length hview
    rw [Vec.view_length, hn] at hl
    have : es = [] := by
      cases es with
      | nil => rfl
      | cons a l => simp at hl
    subst this
    simp [Vec.drainLoop]
  | succ n ih =>
    intro v es hn hview
    rcases es.eq_nil_or_concat with rfl | ⟨es', a, rfl⟩
    · have hl := congrArg List.length hview
      rw [Vec.view_length, hn] at hl
      simp at hl
    · have hsplit : v.view
          = Vec.view { v with len := n } ++ [v.mem.getD n none] := by
        unfold Vec.view
        simp only [hn, List.range_succ, List.map_append, List.map_cons,
          List.map_nil]
      rw [hsplit, List.concat_eq_append, List.map_append, List.map_cons,
        List.map_nil] at hview
      have hlen' : (Vec.view { v with len := n }).length
          = (List.map some es').length := by
        have := congrArg List.length hview
        simp only [List.length_append, List.length_cons, List.length_nil] at this
        omega
      obtain ⟨hview', htail⟩ := List.append_inj hview hlen'
      have hslot : v.mem.getD n none = some a := by
        simpa using htail
      have hpop : v.pop = (some a, { v with len := n }) := by
        unfold Vec.pop
        rw [if_neg (by omega)]
        rw [show v.len - 1 = n by omega, hslot]
      have hstep : Vec.drainLoop (n + 1) v
          = DropEvent.destruct a :: Vec.drainLoop n { v with len := n } := by
        simp only [Vec.drainLoop, hpop]
      rw [hstep, ih { v with len := n } es' rfl hview']
      simp [List.reverse_concat]

/-! ### Capacity monotonicity without any state assumption -/

theorem Vec.push_cap_le {T : Type} {sizeT : Nat} {v w : Vec T} {x : T}
    (h : Vec.push sizeT v x = some w) : v.cap ≤ w.cap := by
  unfold Vec.push at h
  by_cases hc : v.len = v.cap
  · rw [if_pos hc] at h
    cases hg : v.grow sizeT with
    | none => rw [hg] at h; cases h
    | some g =>
      rw [hg] at h
      cases h
      show v.cap ≤ g.cap
      exact Nat.le_of_lt (Vec.grow_cap_lt hg)
  · rw [if_neg hc] at h
    cases h
    exact Nat.le_refl _

theorem Vec.step_cap_le {T : Type} {sizeT : Nat} {v w : Vec T} {op : Op T}
    (h : v.step sizeT op = some w) : v.cap ≤ w.cap := by
  cases op with
  | push x => exact Vec.push_cap_le h
  | pop => cases h; exact Nat.le_of_eq (Vec.pop_snd_cap v).symm

theorem Vec.run_cap_le {T : Type} {sizeT : Nat} {ops : List (Op T)} {v w : Vec T}
    (h : v.run sizeT ops = some w) : v.cap ≤ w.cap := by
  induction ops generalizing v with
  | nil => cases h; exact Nat.le_refl _
  | cons op ops ih =>
    unfold Vec.run at h
    cases hs : v.step sizeT op with
    | none => rw [hs] at h; cases h
    | some u =>
      rw [hs] at h
      exact Nat.le_trans (Vec.step_cap_le hs) (ih h)

/-! ### The claims -/

/-- C1: for every sequence of `N` pushes on a freshly constructed
container, with no removals, the final state has `len = N`, `cap ≥ N`,
and the `Deref` view holds exactly the `N` pushed elements in append
order. -/
theorem C1_push_sequence {T : Type} {sizeT : Nat} {es : List T} {v0 v : Vec T}
    (h0 : Vec.new T sizeT = some v0)
    (h : v0.run sizeT (es.map Op.push) = some v) :
    v.len = es.length ∧ es.length ≤ v.cap ∧ v.view = es.map some := by
  have hinv0 := Vec.new_inv h0
  obtain ⟨rfl, -⟩ := Vec.new_eq_some h0
  obtain ⟨hinv, hlen, -, hview⟩ := Vec.run_pushes es hinv0 h
  obtain ⟨-, hlc, -⟩ := hinv
  refine ⟨by simpa using hlen, ?_, ?_⟩
  · have : v.len = es.length := by simpa using hlen
    omega
  · rw [hview]
    rfl

/-- Witness for C1: pushing `[1, 2, 3]` onto a fresh container of a type
of size 8 gives `len = 3`, `cap = 4 ≥ 3`, and view `[1, 2, 3]`. -/
theorem C1_push_sequence_witness :
    (⟨[some 1, some 2, some 3, none], 4, 3⟩ : Vec Nat).len = 3 ∧
      3 ≤ (⟨[some 1, some 2, some 3, none], 4, 3⟩ : Vec Nat).cap ∧
      (⟨[some 1, some 2, some 3, none], 4, 3⟩ : Vec Nat).view
        = [some 1, some 2, some 3] := by
  have := @C1_push_sequence Nat 8 [1, 2, 3] ⟨[], 0, 0⟩
    ⟨[some 1, some 2, some 3, none], 4, 3⟩ (by decide) (by decide)
  simpa using this

/-- C2: on any container state satisfying the representation invariant,
`push x` followed immediately by `pop` returns `some x`, and `len` is
back to its value before the push. -/
theorem C2_push_pop_roundtrip {T : Type} {sizeT : Nat} {v w : Vec T} {x : T}
    (hinv : v.Inv) (h : Vec.push sizeT v x = some w) :
    w.pop.1 = some x ∧ w.pop.2.len = v.len := by
  obtain ⟨hwinv, hwlen, -, hwview⟩ := Vec.push_eq_some hinv h
  have h1 : w.view[v.len]? = some (w.mem.getD v.len none) := by
    unfold Vec.view
    rw [List.getElem?_map, hwlen, List.getElem?_range (Nat.lt_succ_self _)]
    rfl
  have h2 : (v.view ++ [some x])[v.len]? = some (some x) := by
    rw [List.getElem?_append_right (Nat.le_of_eq (Vec.view_length v)),
      Vec.view_length]
    simp
  have hslot : w.mem.getD v.len none = some x := by
    have h3 : w.view[v.len]? = some (some x) := by
      rw [hwview]
      exact h2
    exact Option.some.inj (h1.symm.trans h3)
  have hne : ¬ w.len = 0 := by omega
  constructor
  · unfold Vec.pop
    rw [if_neg hne]
    show w.mem.getD (w.len - 1) none = some x
    rw [hwlen, Nat.add_sub_cancel]
    exact hslot
  · unfold Vec.pop
    rw [if_neg hne]
    show w.len - 1 = v.len
    omega

/-- Witness for C2: pushing 7 onto the empty container and popping
returns `some 7` and restores `len = 0`. -/
theorem C2_push_pop_roundtrip_witness :
    (⟨[some 7], 1, 1⟩ : Vec Nat).pop.1 = some 7 ∧
      (⟨[some 7], 1, 1⟩ : Vec Nat).pop.2.len = (⟨[], 0, 0⟩ : Vec Nat).len :=
  @C2_push_pop_roundtrip Nat 4 ⟨[], 0, 0⟩ ⟨[some 7], 1, 1⟩ 7
    (by decide) (by decide)

/-- C3: capacity never decreases across any sequence of pushes and pops;
a push from the empty state (`len = 0`, `cap = 0`) sets `cap` to exactly
1; and every growth from a nonzero capacity sets it to exactly twice its
prior value. -/
theorem C3_capacity_growth {T : Type} (sizeT : Nat) :
    (∀ (v w : Vec T) (ops : List (Op T)), v.run sizeT ops = some w →
      v.cap ≤ w.cap) ∧
    (∀ (v w : Vec T) (x : T), v.len = 0 → v.cap = 0 →
      Vec.push sizeT v x = some w → w.cap = 1) ∧
    (∀ v w : Vec T, 0 < v.cap → v.grow sizeT = some w → w.cap = 2 * v.cap) := by
  refine ⟨fun v w ops h => Vec.run_cap_le h, fun v w x hl hc h => ?_,
    fun v w hc h => ?_⟩
  · unfold Vec.push at h
    rw [if_pos (by omega)] at h
    cases hg : v.grow sizeT with
    | none => rw [hg] at h; cases h
    | some g =>
      rw [hg] at h
      cases h
      obtain ⟨-, hcap, -, -⟩ := Vec.grow_eq_some hg
      show g.cap = 1
      rw [hcap, if_pos hc]
  · obtain ⟨-, hcap, -, -⟩ := Vec.grow_eq_some h
    rw [hcap, if_neg (by omega)]

/-- Witness for C3: a concrete run never lowers `cap`; a push from the
fresh state yields `cap = 1`; growing from `cap = 1` yields `cap = 2`. -/
theorem C3_capacity_growth_witness :
    ((⟨[], 0, 0⟩ : Vec Nat).cap ≤ (⟨[some 1, some 2], 2, 1⟩ : Vec Nat).cap) ∧
      (⟨[some 5], 1, 1⟩ : Vec Nat).cap = 1 ∧
      (⟨[some 5, none], 2, 1⟩ : Vec Nat).cap = 2 * (⟨[some 5], 1, 1⟩ : Vec Nat).cap :=
  ⟨(C3_capacity_growth 8).1 ⟨[], 0, 0⟩ ⟨[some 1, some 2], 2, 1⟩
      [Op.push 1, Op.push 2, Op.pop] (by decide),
    (C3_capacity_growth 8).2.1 ⟨[], 0, 0⟩ ⟨[some 5], 1, 1⟩ 5 rfl rfl (by decide),
    (C3_capacity_growth 8).2.2 ⟨[some 5], 1, 1⟩ ⟨[some 5, none], 2, 1⟩
      (by decide) (by decide)⟩

/-- C4: in every state reachable from a fresh container by pushes and
pops, `0 ≤ len ≤ cap` holds (`0 ≤ len` is inherent to `Nat`), and the
view is exactly the prefix of memory below index `len`: it has `len`
entries and exposes no slot at or beyond `len`. -/
theorem C4_reachable_invariant {T : Type} {sizeT : Nat} {v0 v : Vec T}
    {ops : List (Op T)} (h0 : Vec.new T sizeT = some v0)
    (h : v0.run sizeT ops = some v) :
    v.len ≤ v.cap ∧ v.view = v.mem.take v.len ∧ v.view.length = v.len := by
  obtain ⟨⟨hm, hlc, -⟩, -⟩ := Vec.run_inv (Vec.new_inv h0) h
  exact ⟨hlc, Vec.view_eq_take (by omega), Vec.view_length v⟩

/-- Witness for C4: after `push 1; pop; push 2` from a fresh container
the invariant and the view window hold concretely. -/
theorem C4_reachable_invariant_witness :
    (⟨[some 2], 1, 1⟩ : Vec Nat).len ≤ (⟨[some 2], 1, 1⟩ : Vec Nat).cap ∧
      (⟨[some 2], 1, 1⟩ : Vec Nat).view
        = (⟨[some 2], 1, 1⟩ : Vec Nat).mem.take (⟨[some 2], 1, 1⟩ : Vec Nat).len ∧
      (⟨[some 2], 1, 1⟩ : Vec Nat).view.length = (⟨[some 2], 1, 1⟩ : Vec Nat).len :=
  @C4_reachable_invariant Nat 8 ⟨[], 0, 0⟩ ⟨[some 2], 1, 1⟩
    [Op.push 1, Op.pop, Op.push 2] (by decide) (by decide)

/-- C5: `pop` on a container with `len = 0` returns `none` (not an
error) and leaves the whole state — memory, `cap`, and `len` — exactly
as it was. -/
theorem C5_pop_empty_noop {T : Type} {v : Vec T} (h : v.len = 0) :
    v.pop = (none, v) := by
  unfold Vec.pop
  rw [if_pos h]

/-- Witness for C5: popping an empty container with nonzero capacity
returns `none` and changes nothing. -/
theorem C5_pop_empty_noop_witness :
    (⟨[none, none], 2, 0⟩ : Vec Nat).pop = (none, ⟨[none, none], 2, 0⟩) :=
  C5_pop_empty_noop rfl

/-- C6: dropping a container that satisfies the invariant and holds the
live elements `es` (so `K = es.length`) destructs exactly the `K`
elements, from the last index down to the first, and then deallocates
exactly once when `cap > 0` and not at all when `cap = 0` (the dangling
pointer never reaches the deallocator). -/
theorem C6_drop_semantics {T : Type} {v : Vec T} {es : List T}
    (hinv : v.Inv) (hview : v.view = es.map some) :
    v.dropEvents = es.reverse.map DropEvent.destruct
      ++ (if v.cap = 0 then [] else [DropEvent.dealloc]) := by
  unfold Vec.dropEvents
  by_cases h0 : v.cap = 0
  · rw [if_pos h0, if_pos h0]
    obtain ⟨-, hlc, -⟩ := hinv
    have hlen0 : v.len = 0 := by omega
    have hl := congrArg List.length hview
    rw [Vec.view_length, hlen0] at hl
    have hes : es = [] := by
      cases es with
      | nil => rfl
      | cons a l => simp at hl
    subst hes
    simp
  · rw [if_neg h0, if_neg h0]
    rw [Vec.drainLoop_spec v.len v es rfl hview]

/-- Witness for C6: dropping a container with live elements `[1, 2]` and
`cap = 4` destructs 2 then 1 and deallocates once. -/
theorem C6_drop_semantics_witness :
    (⟨[some 1, some 2, none, none], 4, 2⟩ : Vec Nat).dropEvents
      = ([1, 2] : List Nat).reverse.map DropEvent.destruct
        ++ (if (⟨[some 1, some 2, none, none], 4, 2⟩ : Vec Nat).cap = 0 then []
            else [DropEvent.dealloc]) :=
  C6_drop_semantics (by decide) (by decide)

/-- C7: in every invocation, `grow` returns a state exactly when the new
capacity passes both pre-allocation checks (the `Layout::array` byte-size
bound and the `assert!` element-count bound against `isize::MAX`), and
any state it returns has a byte size within the platform limit; when the
limit would be exceeded it aborts (yields no state) instead. -/
theorem C7_overflow_guard {T : Type} (sizeT : Nat) (v : Vec T) :
    ((v.grow sizeT).isSome ↔
      (if v.cap = 0 then 1 else 2 * v.cap) * sizeT ≤ isizeMax ∧
        (if v.cap = 0 then 1 else 2 * v.cap) ≤ isizeMax) ∧
    ∀ w, v.grow sizeT = some w → w.cap * sizeT ≤ isizeMax := by
  constructor
  · unfold Vec.grow
    by_cases h0 : v.cap = 0 <;> simp only [h0, ite_true, ite_false] <;>
      split_ifs <;> simp_all
  · intro w hw
    exact (Vec.grow_eq_some hw).2.2.2

/-- Witness for C7: for the empty container with `sizeT = 8` the guard
is satisfied and growing stays within the platform limit. -/
theorem C7_overflow_guard_witness :
    (((⟨[], 0, 0⟩ : Vec Nat).grow 8).isSome ↔
      (if (⟨[], 0, 0⟩ : Vec Nat).cap = 0 then 1
        else 2 * (⟨[], 0, 0⟩ : Vec Nat).cap) * 8 ≤ isizeMax ∧
      (if (⟨[], 0, 0⟩ : Vec Nat).cap = 0 then 1
        else 2 * (⟨[], 0, 0⟩ : Vec Nat).cap) ≤ isizeMax) ∧
    (⟨[none], 1, 0⟩ : Vec Nat).cap * 8 ≤ isizeMax :=
  ⟨(C7_overflow_guard 8 ⟨[], 0, 0⟩).1,
    (C7_overflow_guard 8 ⟨[], 0, 0⟩).2 ⟨[none], 1, 0⟩ (by decide)⟩

/-- C8: `grow` never changes `len`: whenever it returns a state, that
state's `len` equals the pre-state's `len`. -/
theorem C8_grow_preserves_len {T : Type} {sizeT : Nat} {v w : Vec T}
    (h : v.grow sizeT = some w) : w.len = v.len :=
  (Vec.grow_eq_some h).1

/-- Witness for C8: growing the empty container leaves `len = 0`. -/
theorem C8_grow_preserves_len_witness :
    (⟨[none], 1, 0⟩ : Vec Nat).len = (⟨[], 0, 0⟩ : Vec Nat).len :=
  @C8_grow_preserves_len Nat 1 ⟨[], 0, 0⟩ ⟨[none], 1, 0⟩ (by decide)

/-- C9: `new` succeeds exactly for element types of nonzero size, and
then always yields the empty container — `cap = 0`, `len = 0`, no
backing allocation; for a zero-size element type it fails fast instead
of producing a container. -/
theorem C9_new_empty {T : Type} (sizeT : Nat) :
    (sizeT ≠ 0 → Vec.new T sizeT = some { mem := [], cap := 0, len := 0 }) ∧
    (sizeT = 0 → Vec.new T sizeT = none) := by
  constructor <;> intro h <;> unfold Vec.new <;> simp [h]

/-- Witness for C9: size 8 yields the empty container, size 0 aborts. -/
theorem C9_new_empty_witness :
    Vec.new Nat 8 = some { mem := [], cap := 0, len := 0 } ∧
      Vec.new Nat 0 = none :=
  ⟨(C9_new_empty 8).1 (by decide), (C9_new_empty 0).2 rfl⟩

/-! ### Capacity stays a power of two -/

theorem Vec.step_cap_pow {T : Type} {sizeT : Nat} {v w : Vec T} {op : Op T}
    (hp : v.cap = 0 ∨ ∃ k, v.cap = 2 ^ k) (h : v.step sizeT op = some w) :
    w.cap = 0 ∨ ∃ k, w.cap = 2 ^ k := by
  cases op with
  | pop =>
    cases h
    rw [Vec.pop_snd_cap]
    exact hp
  | push x =>
    unfold Vec.step Vec.push at h
    by_cases hc : v.len = v.cap
    · rw [if_pos hc] at h
      cases hg : v.grow sizeT with
      | none => rw [hg] at h; cases h
      | some g =>
        rw [hg] at h
        cases h
        obtain ⟨-, hcap, -, -⟩ := Vec.grow_eq_some hg
        right
        show ∃ k, g.cap = 2 ^ k
        by_cases h0 : v.cap = 0
        · exact ⟨0, by rw [hcap, if_pos h0]; rfl⟩
        · rcases hp with h' | ⟨k, hk⟩
          · exact absurd h' h0
          · refine ⟨k + 1, ?_⟩
            rw [hcap, if_neg h0, hk, pow_succ]
            ring
    · rw [if_neg hc] at h
      cases h
      exact hp

theorem Vec.run_cap_pow {T : Type} {sizeT : Nat} {ops : List (Op T)}
    {v w : Vec T} (hp : v.cap = 0 ∨ ∃ k, v.cap = 2 ^ k)
    (h : v.run sizeT ops = some w) : w.cap = 0 ∨ ∃ k, w.cap = 2 ^ k := by
  induction ops generalizing v with
  | nil => cases h; exact hp
  | cons op ops ih =>
    unfold Vec.run at h
    cases hs : v.step sizeT op with
    | none => rw [hs] at h; cases h
    | some u =>
      rw [hs] at h
      exact ih (Vec.step_cap_pow hp hs) h

/-- C10: in every state reachable from a fresh container by pushes and
pops, `cap` is either 0 or an exact power of two. -/
theorem C10_cap_zero_or_pow2 {T : Type} {sizeT : Nat} {v0 v : Vec T}
    {ops : List (Op T)} (h0 : Vec.new T sizeT = some v0)
    (h : v0.run sizeT ops = some v) :
    v.cap = 0 ∨ ∃ k, v.cap = 2 ^ k := by
  obtain ⟨rfl, -⟩ := Vec.new_eq_some h0
  exact Vec.run_cap_pow (Or.inl rfl) h

/-- Witness for C10: after three pushes from a fresh container the
capacity 4 is a power of two. -/
theorem C10_cap_zero_or_pow2_witness :
    (⟨[some 1, some 2, some 3, none], 4, 3⟩ : Vec Nat).cap = 0 ∨
      ∃ k, (⟨[some 1, some 2, some 3, none], 4, 3⟩ : Vec Nat).cap = 2 ^ k :=
  @C10_cap_zero_or_pow2 Nat 8 ⟨[], 0, 0⟩
    ⟨[some 1, some 2, some 3, none], 4, 3⟩
    [Op.push 1, Op.push 2, Op.push 3] (by decide) (by decide)
